/-
Verification of the core behaviors of the pypdfview application (src/app.py):
the session page cache (`ensure_pages_loaded`), chat-range resolution and
transcript keying (`chat_dialog`), page-jump navigation (`handle_page_jump`),
and the bold-symbol markdown repair (`fix_bold_symbol_issue`).

The Python functions are shallowly embedded as executable Lean definitions.
Streamlit session state (`st.session_state.pages`, `chat_histories`,
`current_page`) is modelled by explicit state values threaded through the
functions; the PDF-to-Markdown converter (`pymupdf4llm.to_markdown`) is an
abstract parameter `convert : List Nat → Option (List α)` whose `none`
result models the converter raising an exception.
-/
import Mathlib

namespace PyPdfView

/-! ## Session page cache (src/app.py, `ensure_pages_loaded`, lines 48-73)

A cache entry is either real converted page data (`page`) — in Python a
dict produced by `pymupdf4llm.to_markdown(..., page_chunks=True)` — or the
error placeholder dict `{"text": "Error loading page."}` stored when the
conversion of a batch raised. -/

inductive Entry (α : Type) where
  | page : α → Entry α
  | errorPlaceholder : Entry α
deriving DecidableEq, Repr

/-- The cache `st.session_state.pages`: a Python dict from page index to entry,
modelled as an association list where the FIRST binding for a key is its
current value (insertion prepends, i.e. overwrites). -/
def Cache (α : Type) : Type := List (Nat × Entry α)

/-- Membership and indexing, `idx in st.session_state.pages` and `st.session_state.pages[idx]`. -/
def lookupPage {α : Type} : Cache α → Nat → Option (Entry α)
  | [], _ => none
  | (k, v) :: rest, idx => if k = idx then some v else lookupPage rest idx

/-- Line 49: `[idx for idx in page_indices if idx not in st.session_state.pages]`. -/
def indicesToLoad {α : Type} (pages : Cache α) (page_indices : List Nat) : List Nat :=
  page_indices.filter (fun idx => (lookupPage pages idx).isNone)

/-- Insert into a sorted list, keeping order. -/
def insertSorted (x : Nat) : List Nat → List Nat
  | [] => [x]
  | y :: ys => if x ≤ y then x :: y :: ys else y :: insertSorted x ys

/-- Line 57: `indices_to_load.sort()` — ascending sort of the missing
indices. (On `Nat` keys every stable sort agrees, so insertion sort is
extensionally the same as Python's list.sort.) -/
def sortIdx (l : List Nat) : List Nat := l.foldr insertSorted []

/-- The argument batch passed to the converter (`pymupdf4llm.to_markdown`,
lines 58-64): `none` when `indices_to_load` is empty and the converter is
not invoked at all (line 51 guard); otherwise the sorted missing indices.
The embedding of `ensure_pages_loaded` below performs at most this single
converter invocation per call. -/
def conversionBatch {α : Type} (pages : Cache α) (page_indices : List Nat) :
    Option (List Nat) :=
  if indicesToLoad pages page_indices = [] then none
  else some (sortIdx (indicesToLoad pages page_indices))

/-- Lines 65-67: `for i, page_data in enumerate(page_data_list):
st.session_state.pages[indices_to_load[i]] = page_data`. -/
def storeConverted {α : Type} (pages : Cache α) (sorted : List Nat) (data : List α) :
    Cache α :=
  (sorted.zip data).foldl (fun c p => (p.1, Entry.page p.2) :: c) pages

/-- Lines 71-73: `for idx in indices_to_load: if idx not in
st.session_state.pages: st.session_state.pages[idx] = {"text": "Error loading page."}`. -/
def storeErrors {α : Type} (pages : Cache α) (idxs : List Nat) : Cache α :=
  idxs.foldl
    (fun c idx => if (lookupPage c idx).isSome then c
                  else (idx, Entry.errorPlaceholder) :: c)
    pages

/-- The function `ensure_pages_loaded(pdf_stream, page_indices)` (lines 48-73), returning
the updated `st.session_state.pages`. `convert` abstracts
`pymupdf.open` + `pymupdf4llm.to_markdown`: `some data` is a successful
conversion returning one page-data item per requested index in request
order; `none` is the converter raising an exception (caught at line 69). -/
def ensure_pages_loaded {α : Type} (convert : List Nat → Option (List α))
    (pages : Cache α) (page_indices : List Nat) : Cache α :=
  match conversionBatch pages page_indices with
  | none => pages
  | some sorted =>
    match convert sorted with
    | some page_data_list => storeConverted pages sorted page_data_list
    | none => storeErrors pages sorted

/-- A concrete always-succeeding converter used for the scenario claims:
page index `i` converts to page data `i`. One data item per requested
index, in request order, as `pymupdf4llm.to_markdown(..., page_chunks=True)`
returns. -/
def demoConvert : List Nat → Option (List Nat) := fun idxs => some idxs

/-- A concrete always-raising converter (models `to_markdown` throwing). -/
def failConvert : List Nat → Option (List Nat) := fun _ => none

/-! ## Chat range resolution and transcript keying
(src/app.py, `chat_dialog`, lines 100-132) -/

/-- A Python dict key for `st.session_state.chat_histories`: an `int` for a
single-page chat (line 120) or a `str` "first-last" for a multi-page range
(line 122). -/
inductive ChatKey where
  | int : Nat → ChatKey
  | str : String → ChatKey
deriving DecidableEq, Repr

/-- Line 110: `selected_indices = list(range(start_page - 1, end_page))`,
the ordered 0-based indices. `List.range' a n = [a, a+1, ..., a+n-1]`
mirrors `range(a, b)` with `n = b - a`. -/
def selectedIndices (start_page end_page : Nat) : List Nat :=
  List.range' (start_page - 1) (end_page - (start_page - 1))

/-- Lines 118-122: `chat_key = selected_indices[0]` when the resolved
sequence has length 1, else the composite string
`f"{selected_indices[0]}-{selected_indices[-1]}"`. -/
def transcriptKey (idxs : List Nat) : ChatKey :=
  if idxs.length = 1 then ChatKey.int (idxs.headD 0)
  else ChatKey.str (toString (idxs.headD 0) ++ "-" ++ toString (idxs.getLastD 0))

/-- Lines 106-122 as one operation: fail on `start > end` (lines 106-108,
the dialog returns before any page fetch), else resolve the ordered 0-based
index sequence and its transcript key. -/
def resolve_range (start_page end_page : Nat) : Option (List Nat × ChatKey) :=
  if start_page > end_page then none
  else some (selectedIndices start_page end_page,
             transcriptKey (selectedIndices start_page end_page))

/-- A chat transcript lookup in `st.session_state.chat_histories`
(dict from key to list of `{role, content}` turns). -/
def lookupHist : List (ChatKey × List (String × String)) → ChatKey →
    Option (List (String × String))
  | [], _ => none
  | (k, v) :: rest, key => if k = key then some v else lookupHist rest key

/-- The session state touched by `chat_dialog`: the page cache, the chat
transcripts, and the navigation cursor `st.session_state.current_page`. -/
structure SessionState (α : Type) where
  pages : Cache α
  chat_histories : List (ChatKey × List (String × String))
  current_page : Nat

/-- The state effect of `chat_dialog` up to transcript selection
(lines 106-128): on `start_page > end_page` show an error and return with
no state change and no page fetch (`none` result, lines 106-108); otherwise
load the selected pages into the cache (line 111), compute the transcript
key (lines 118-122) and initialize an empty transcript for a fresh key
(lines 127-128). -/
def chat_dialog_step {α : Type} (convert : List Nat → Option (List α))
    (st : SessionState α) (start_page end_page : Nat) :
    SessionState α × Option (List Nat × ChatKey) :=
  if start_page > end_page then (st, none)
  else
    let idxs := selectedIndices start_page end_page
    let pages' := ensure_pages_loaded convert st.pages idxs
    let key := transcriptKey idxs
    let hist' := if (lookupHist st.chat_histories key).isSome then st.chat_histories
                 else (key, []) :: st.chat_histories
    ({ st with pages := pages', chat_histories := hist' }, some (idxs, key))

/-! ## Page-jump navigation (src/app.py, `handle_page_jump`, lines 276-281) -/

/-- The function `handle_page_jump`: given `total_pages`, the current 0-based
`st.session_state.current_page` and the 1-based jump target, return the new
current page and whether the out-of-range warning was shown. The target is
an `Int` since a Python int can be arbitrary. -/
def handle_page_jump (total_pages : Nat) (current_page : Int) (page_jump : Int) :
    Int × Bool :=
  if 1 ≤ page_jump ∧ page_jump ≤ (total_pages : Int) then (page_jump - 1, false)
  else (current_page, true)

/-! ## Bold-symbol repair (src/app.py, `fix_bold_symbol_issue`, lines 20-31)

The function substitutes, for every non-overlapping left-to-right match of
the compiled pattern with a double-asterisk opener, a non-greedy
one-or-more-character inner group matched with DOTALL (so `.` also matches
newline), a double-asterisk closer and a greedy whitespace group, the
replacement computed by `repl`: if the inner group contains a character
that is not an ASCII letter, digit or whitespace and the whitespace group
is empty, one space is appended after the closing marker; otherwise the
match is kept verbatim. The embedding implements exactly this backtracking
behavior over `List Char`. -/

/-- The set matched by the regex class `\s` on a Python `str` (also the set
accepted by `str.isspace` on single characters). -/
def isPySpace (c : Char) : Bool :=
  c == ' ' || c == '\t' || c == '\n' || c == '\x0b' || c == '\x0c' || c == '\x0d' ||
  c == '\x1c' || c == '\x1d' || c == '\x1e' || c == '\x1f' ||
  c == '\x85' || c == '\xa0' || c == '\u1680' ||
  (decide (0x2000 ≤ c.toNat) && decide (c.toNat ≤ 0x200a)) ||
  c == '\u2028' || c == '\u2029' || c == '\u202f' || c == '\u205f' || c == '\u3000'

/-- A character matched by `[^0-9A-Za-z\s]`: not an ASCII digit, not an
ASCII letter, not whitespace. -/
def isSymbolChar (c : Char) : Bool :=
  !((decide (48 ≤ c.toNat) && decide (c.toNat ≤ 57)) ||
    (decide (65 ≤ c.toNat) && decide (c.toNat ≤ 90)) ||
    (decide (97 ≤ c.toNat) && decide (c.toNat ≤ 122)) ||
    isPySpace c)

/-- Line 27: `re.search(r"[^0-9A-Za-z\s]", inner)` succeeds, i.e. the inner
group contains at least one symbol character. -/
def hasSymbolChar (l : List Char) : Bool := l.any isSymbolChar

/-- The non-greedy group `(.+?)` followed by the literal `\*\*`: split `t`
as `inner ++ "**" ++ u` with `inner` nonempty and as short as possible
(the backtracking engine extends the one-or-more group one character at a
time, checking for the closing marker after each extension). -/
def splitInner : List Char → Option (List Char × List Char)
  | [] => none
  | c :: rest =>
    if rest.take 2 = ['*', '*'] then some ([c], rest.drop 2)
    else (splitInner rest).map (fun p => (c :: p.1, p.2))

/-- One attempted match of `\*\*(.+?)\*\*(\s*)` anchored at the start of
`s`: on success, the inner group, the greedy whitespace group, and the
remainder of the text after the whole match. -/
def matchAt (s : List Char) : Option (List Char × List Char × List Char) :=
  if s.take 2 = ['*', '*'] then
    (splitInner (s.drop 2)).map
      (fun p => (p.1, p.2.takeWhile isPySpace, p.2.dropWhile isPySpace))
  else none

/-- Lines 23-29, the replacement function: `f"**{inner}** "` when the inner
group has a symbol character and the whitespace group is empty (line 27),
else the whole match `m.group(0)` unchanged. -/
def repl (inner ws : List Char) : List Char :=
  '*' :: '*' :: (inner ++ ('*' :: '*' ::
    (if hasSymbolChar inner ∧ ws = [] then [' '] else ws)))

/-- The left-to-right non-overlapping scan of `re.Pattern.sub`: at each
position try a match; on success emit the replacement and resume after the
match, else emit one character and move on. `fuel` bounds the recursion and
is irrelevant once at least `s.length` (each step consumes at least one
character). -/
def subAuxF : Nat → List Char → List Char
  | 0, s => s
  | fuel + 1, s =>
    match matchAt s with
    | some (inner, ws, rest) => repl inner ws ++ subAuxF fuel rest
    | none =>
      match s with
      | [] => []
      | c :: rest => c :: subAuxF fuel rest

/-- The scan with enough fuel to run to completion. -/
def subAux (s : List Char) : List Char := subAuxF s.length s

/-- The function `fix_bold_symbol_issue` (lines 20-31):
`pattern.sub(repl, md)` for
`pattern = re.compile(r"\*\*(.+?)\*\*(\s*)", re.DOTALL)`. -/
def fix_bold_symbol_issue (md : String) : String := String.mk (subAux md.data)

/-! ### Basic cache lemmas -/

theorem lookupPage_cons {α : Type} (k : Nat) (v : Entry α) (c : Cache α) (idx : Nat) :
    lookupPage ((k, v) :: c) idx = if k = idx then some v else lookupPage c idx := rfl

theorem lookupPage_cons_isSome {α : Type} {c : Cache α} {idx : Nat}
    (h : (lookupPage c idx).isSome) (k : Nat) (v : Entry α) :
    (lookupPage ((k, v) :: c) idx).isSome := by
  rw [lookupPage_cons]
  split <;> simp [h]

theorem lookupPage_cons_ne {α : Type} (c : Cache α) {k idx : Nat} (hne : k ≠ idx)
    (v : Entry α) : lookupPage ((k, v) :: c) idx = lookupPage c idx := by
  rw [lookupPage_cons, if_neg hne]

/-- Since `storeConverted` only prepends bindings, a present entry stays present. -/
theorem storeConverted_isSome_mono {α : Type} (sorted : List Nat) (data : List α)
    (c : Cache α) (idx : Nat) (h : (lookupPage c idx).isSome) :
    (lookupPage (storeConverted c sorted data) idx).isSome := by
  induction sorted generalizing data c with
  | nil => simpa [storeConverted] using h
  | cons a rest ih =>
    cases data with
    | nil => simpa [storeConverted] using h
    | cons b data' =>
      have : storeConverted c (a :: rest) (b :: data')
          = storeConverted ((a, Entry.page b) :: c) rest data' := rfl
      rw [this]
      exact ih data' _ (lookupPage_cons_isSome h a (Entry.page b))

theorem storeConverted_isSome_of_mem {α : Type} (sorted : List Nat) (data : List α)
    (c : Cache α) (idx : Nat) (hmem : idx ∈ sorted) (hlen : data.length = sorted.length) :
    (lookupPage (storeConverted c sorted data) idx).isSome := by
  induction sorted generalizing data c with
  | nil => cases hmem
  | cons a rest ih =>
    cases data with
    | nil => simp at hlen
    | cons b data' =>
      have hstep : storeConverted c (a :: rest) (b :: data')
          = storeConverted ((a, Entry.page b) :: c) rest data' := rfl
      rw [hstep]
      rcases List.mem_cons.mp hmem with heq | hmem'
      · subst heq
        exact storeConverted_isSome_mono rest data' _ idx (by simp [lookupPage_cons])
      · exact ih data' _ hmem' (by simpa using hlen)

/-- Keys inserted by `storeConverted` all come from `sorted`. -/
theorem storeConverted_lookup_of_not_mem {α : Type} (sorted : List Nat) (data : List α)
    (c : Cache α) (idx : Nat) (hnm : idx ∉ sorted) :
    lookupPage (storeConverted c sorted data) idx = lookupPage c idx := by
  induction sorted generalizing data c with
  | nil => rfl
  | cons a rest ih =>
    cases data with
    | nil => rfl
    | cons b data' =>
      have hstep : storeConverted c (a :: rest) (b :: data')
          = storeConverted ((a, Entry.page b) :: c) rest data' := rfl
      rw [hstep, ih data' _ (fun h => hnm (List.mem_cons_of_mem a h))]
      exact lookupPage_cons_ne c
        (fun h => hnm (by rw [← h]; exact List.mem_cons_self a rest)) _

theorem storeErrors_lookup_some {α : Type} (idxs : List Nat) (c : Cache α)
    (idx : Nat) (e : Entry α) (h : lookupPage c idx = some e) :
    lookupPage (storeErrors c idxs) idx = some e := by
  induction idxs generalizing c with
  | nil => exact h
  | cons a rest ih =>
    have hstep : storeErrors c (a :: rest)
        = storeErrors (if (lookupPage c a).isSome then c
                       else (a, Entry.errorPlaceholder) :: c) rest := rfl
    rw [hstep]
    split
    · exact ih c h
    · next hna =>
      refine ih _ ?_
      have hane : a ≠ idx := by
        intro heq; subst heq; simp [h] at hna
      rw [lookupPage_cons_ne c hane, h]

theorem storeErrors_lookup_of_not_mem {α : Type} (idxs : List Nat) (c : Cache α)
    (idx : Nat) (hnm : idx ∉ idxs) :
    lookupPage (storeErrors c idxs) idx = lookupPage c idx := by
  induction idxs generalizing c with
  | nil => rfl
  | cons a rest ih =>
    have hstep : storeErrors c (a :: rest)
        = storeErrors (if (lookupPage c a).isSome then c
                       else (a, Entry.errorPlaceholder) :: c) rest := rfl
    rw [hstep]
    have hrest : idx ∉ rest := fun h => hnm (List.mem_cons_of_mem a h)
    split
    · exact ih c hrest
    · rw [ih _ hrest]
      exact lookupPage_cons_ne c
        (fun h => hnm (by rw [← h]; exact List.mem_cons_self a rest)) _

/-- An index missing from the cache and in the failed batch gets the
error placeholder. -/
theorem storeErrors_lookup_of_mem {α : Type} (idxs : List Nat) (c : Cache α)
    (idx : Nat) (hmem : idx ∈ idxs) (hmiss : lookupPage c idx = none) :
    lookupPage (storeErrors c idxs) idx = some Entry.errorPlaceholder := by
  induction idxs generalizing c with
  | nil => cases hmem
  | cons a rest ih =>
    have hstep : storeErrors c (a :: rest)
        = storeErrors (if (lookupPage c a).isSome then c
                       else (a, Entry.errorPlaceholder) :: c) rest := rfl
    rw [hstep]
    rcases List.mem_cons.mp hmem with heq | hmem'
    · subst heq
      rw [if_neg (by simp [hmiss])]
      exact storeErrors_lookup_some rest _ idx _ (by simp [lookupPage_cons])
    · split
      · exact ih c hmem' hmiss
      · next hna =>
        by_cases hae : a = idx
        · subst hae
          rw [if_neg (by simp [hmiss])] at hstep
          exact storeErrors_lookup_some rest _ a _ (by simp [lookupPage_cons])
        · exact ih _ hmem' (by rw [lookupPage_cons_ne c hae, hmiss])

theorem mem_indicesToLoad {α : Type} (pages : Cache α) (page_indices : List Nat)
    (idx : Nat) :
    idx ∈ indicesToLoad pages page_indices
      ↔ idx ∈ page_indices ∧ lookupPage pages idx = none := by
  simp [indicesToLoad, List.mem_filter, Option.isNone_iff_eq_none]

theorem mem_insertSorted (x idx : Nat) (l : List Nat) :
    idx ∈ insertSorted x l ↔ idx = x ∨ idx ∈ l := by
  induction l with
  | nil => simp [insertSorted]
  | cons y ys ih =>
    rw [insertSorted]
    split
    · simp
    · simp [ih]
      tauto

theorem mem_sortIdx (l : List Nat) (idx : Nat) : idx ∈ sortIdx l ↔ idx ∈ l := by
  induction l with
  | nil => simp [sortIdx]
  | cons a rest ih =>
    have : sortIdx (a :: rest) = insertSorted a (sortIdx rest) := rfl
    rw [this, mem_insertSorted, ih]
    simp

theorem conversionBatch_mem {α : Type} (pages : Cache α) (page_indices : List Nat)
    (b : List Nat) (hb : conversionBatch pages page_indices = some b) (idx : Nat) :
    idx ∈ b ↔ idx ∈ page_indices ∧ lookupPage pages idx = none := by
  unfold conversionBatch at hb
  split at hb
  · cases hb
  · cases hb
    rw [mem_sortIdx]
    exact mem_indicesToLoad pages page_indices idx

theorem conversionBatch_none_itl {α : Type} {pages : Cache α} {page_indices : List Nat}
    (h : conversionBatch pages page_indices = none) :
    indicesToLoad pages page_indices = [] := by
  unfold conversionBatch at h
  split at h
  · assumption
  · cases h

theorem ensure_pages_loaded_none {α : Type} (convert : List Nat → Option (List α))
    (pages : Cache α) (page_indices : List Nat)
    (h : conversionBatch pages page_indices = none) :
    ensure_pages_loaded convert pages page_indices = pages := by
  unfold ensure_pages_loaded
  rw [h]

theorem ensure_pages_loaded_success {α : Type} {convert : List Nat → Option (List α)}
    {pages : Cache α} {page_indices b : List Nat} {data : List α}
    (h1 : conversionBatch pages page_indices = some b) (h2 : convert b = some data) :
    ensure_pages_loaded convert pages page_indices = storeConverted pages b data := by
  unfold ensure_pages_loaded
  rw [h1]
  simp only [h2]

theorem ensure_pages_loaded_failure {α : Type} {convert : List Nat → Option (List α)}
    {pages : Cache α} {page_indices b : List Nat}
    (h1 : conversionBatch pages page_indices = some b) (h2 : convert b = none) :
    ensure_pages_loaded convert pages page_indices = storeErrors pages b := by
  unfold ensure_pages_loaded
  rw [h1]
  simp only [h2]

/-- C1: after `ensure_pages_loaded` returns, every requested index has an
entry present in the session page cache — either converted content or the
error placeholder; no requested index is left without an entry. The
hypothesis `hconv` is the Page Converter collaborator contract of spec §6:
on success, one page-data item per requested index. -/
theorem ensure_pages_loaded_covers_requested {α : Type}
    (convert : List Nat → Option (List α)) (pages : Cache α) (page_indices : List Nat)
    (hconv : ∀ l r, convert l = some r → r.length = l.length)
    (idx : Nat) (hidx : idx ∈ page_indices) :
    (lookupPage (ensure_pages_loaded convert pages page_indices) idx).isSome := by
  cases hcb : conversionBatch pages page_indices with
  | none =>
    rw [ensure_pages_loaded_none convert pages page_indices hcb]
    cases hl : lookupPage pages idx with
    | some e => simp
    | none =>
      exfalso
      have hmem : idx ∈ indicesToLoad pages page_indices :=
        (mem_indicesToLoad pages page_indices idx).mpr ⟨hidx, hl⟩
      rw [conversionBatch_none_itl hcb] at hmem
      cases hmem
  | some sorted =>
    cases hl : lookupPage pages idx with
    | some e =>
      cases hcv : convert sorted with
      | some data =>
        rw [ensure_pages_loaded_success hcb hcv]
        exact storeConverted_isSome_mono sorted data pages idx (by simp [hl])
      | none =>
        rw [ensure_pages_loaded_failure hcb hcv,
          storeErrors_lookup_some sorted pages idx e hl]
        rfl
    | none =>
      have hmem : idx ∈ sorted :=
        (conversionBatch_mem pages page_indices sorted hcb idx).mpr ⟨hidx, hl⟩
      cases hcv : convert sorted with
      | some data =>
        rw [ensure_pages_loaded_success hcb hcv]
        exact storeConverted_isSome_of_mem sorted data pages idx hmem (hconv sorted data hcv)
      | none =>
        rw [ensure_pages_loaded_failure hcb hcv,
          storeErrors_lookup_of_mem sorted pages idx hmem hl]
        rfl

theorem ensure_pages_loaded_covers_requested_witness :
    (lookupPage (ensure_pages_loaded demoConvert ([] : Cache Nat) [0, 1]) 0).isSome :=
  ensure_pages_loaded_covers_requested demoConvert ([] : Cache Nat) [0, 1]
    (fun l r h => by simp only [demoConvert] at h; rw [← Option.some_inj.mp h])
    0 (by decide)

/-- C2: an entry present in the cache for a given index is never recomputed
or replaced by a later `ensure_pages_loaded` call: the cached value
(including an error placeholder) survives unchanged, and the index is
excluded from the batch handed to the converter, so it triggers no further
converter work. -/
theorem cached_entry_never_recomputed {α : Type}
    (convert : List Nat → Option (List α)) (pages : Cache α) (page_indices : List Nat)
    (idx : Nat) (e : Entry α) (h : lookupPage pages idx = some e) :
    lookupPage (ensure_pages_loaded convert pages page_indices) idx = some e ∧
    ∀ b, conversionBatch pages page_indices = some b → idx ∉ b := by
  have hnb : ∀ b, conversionBatch pages page_indices = some b → idx ∉ b := by
    intro b hb hmem
    have hc := (conversionBatch_mem pages page_indices b hb idx).mp hmem
    rw [h] at hc
    exact Option.noConfusion hc.2
  refine ⟨?_, hnb⟩
  cases hcb : conversionBatch pages page_indices with
  | none =>
    rw [ensure_pages_loaded_none convert pages page_indices hcb]
    exact h
  | some b =>
    cases hcv : convert b with
    | some data =>
      rw [ensure_pages_loaded_success hcb hcv,
        storeConverted_lookup_of_not_mem b data pages idx (hnb b hcb)]
      exact h
    | none =>
      rw [ensure_pages_loaded_failure hcb hcv]
      exact storeErrors_lookup_some b pages idx e h

theorem cached_entry_never_recomputed_witness :
    lookupPage
      (ensure_pages_loaded demoConvert ([(7, Entry.page 7)] : Cache Nat) [7, 8]) 7
      = some (Entry.page 7) :=
  (cached_entry_never_recomputed demoConvert [(7, Entry.page 7)] [7, 8] 7
    (Entry.page 7) (by decide)).1

/-- C3: each `ensure_pages_loaded` call invokes the converter at most once,
on a single batch (`conversionBatch`) consisting of exactly the requested
indices missing from the cache; scenario: over a 5-page document with an
empty cache, requesting `[0,1]` batches `[0,1]`, then requesting `[1,2]`
batches only `[2]`, after which the cache has entries for 0, 1 and 2. -/
theorem conversion_batch_exactly_missing {α : Type} (pages : Cache α)
    (page_indices b : List Nat) (hb : conversionBatch pages page_indices = some b) :
    (∀ i, i ∈ b ↔ i ∈ page_indices ∧ lookupPage pages i = none) ∧
    conversionBatch ([] : Cache Nat) [0, 1] = some [0, 1] ∧
    conversionBatch (ensure_pages_loaded demoConvert ([] : Cache Nat) [0, 1]) [1, 2]
      = some [2] ∧
    ((lookupPage (ensure_pages_loaded demoConvert
        (ensure_pages_loaded demoConvert ([] : Cache Nat) [0, 1]) [1, 2]) 0).isSome ∧
     (lookupPage (ensure_pages_loaded demoConvert
        (ensure_pages_loaded demoConvert ([] : Cache Nat) [0, 1]) [1, 2]) 1).isSome ∧
     (lookupPage (ensure_pages_loaded demoConvert
        (ensure_pages_loaded demoConvert ([] : Cache Nat) [0, 1]) [1, 2]) 2).isSome) :=
  ⟨conversionBatch_mem pages page_indices b hb, by decide, by decide, by decide⟩

theorem conversion_batch_exactly_missing_witness :
    0 ∈ [0, 1] ∧ lookupPage ([] : Cache Nat) 0 = none :=
  ((conversion_batch_exactly_missing ([] : Cache Nat) [0, 1] [0, 1] (by decide)).1 0).mp
    (by decide)

/-- C4: when the converter fails (raises) on a batch, every index of that
batch receives the uniform error placeholder, entries outside the batch are
untouched, and a later request for such an index performs no retry: its
batch is empty (`conversionBatch = none`) and the placeholder is still
returned, whatever converter is supplied the second time. -/
theorem failed_batch_marks_placeholders {α : Type}
    (convert : List Nat → Option (List α)) (pages : Cache α) (page_indices b : List Nat)
    (hb : conversionBatch pages page_indices = some b) (hfail : convert b = none) :
    (∀ idx ∈ b,
        lookupPage (ensure_pages_loaded convert pages page_indices) idx
          = some Entry.errorPlaceholder) ∧
    (∀ idx, idx ∉ b →
        lookupPage (ensure_pages_loaded convert pages page_indices) idx
          = lookupPage pages idx) ∧
    (∀ idx ∈ b,
        conversionBatch (ensure_pages_loaded convert pages page_indices) [idx] = none ∧
        ∀ convert2 : List Nat → Option (List α),
          lookupPage (ensure_pages_loaded convert2
              (ensure_pages_loaded convert pages page_indices) [idx]) idx
            = some Entry.errorPlaceholder) := by
  rw [ensure_pages_loaded_failure hb hfail]
  have hplaceholder : ∀ idx ∈ b,
      lookupPage (storeErrors pages b) idx = some Entry.errorPlaceholder := by
    intro idx hmem
    have hmiss : lookupPage pages idx = none :=
      ((conversionBatch_mem pages page_indices b hb idx).mp hmem).2
    exact storeErrors_lookup_of_mem b pages idx hmem hmiss
  refine ⟨hplaceholder, fun idx hnm => storeErrors_lookup_of_not_mem b pages idx hnm, ?_⟩
  intro idx hmem
  have hsome := hplaceholder idx hmem
  have hnone : conversionBatch (storeErrors pages b) [idx] = none := by
    unfold conversionBatch
    rw [if_pos]
    unfold indicesToLoad
    rw [List.filter_cons]
    simp [hsome]
  refine ⟨hnone, fun convert2 => ?_⟩
  rw [ensure_pages_loaded_none convert2 _ _ hnone]
  exact hsome

theorem failed_batch_marks_placeholders_witness :
    lookupPage (ensure_pages_loaded failConvert ([] : Cache Nat) [3, 4]) 3
      = some Entry.errorPlaceholder :=
  (failed_batch_marks_placeholders failConvert ([] : Cache Nat) [3, 4] [3, 4]
    (by decide) (by decide)).1 3 (by decide)

theorem headD_range' (a n : Nat) (h : n ≠ 0) : (List.range' a n).headD 0 = a := by
  cases n with
  | zero => exact absurd rfl h
  | succ m => rw [List.range'_succ]; rfl

theorem getLastD_range' (a n : Nat) (h : n ≠ 0) :
    (List.range' a n).getLastD 0 = a + (n - 1) := by
  cases n with
  | zero => exact absurd rfl h
  | succ m => rw [List.range'_1_concat, List.getLastD_concat]; simp

/-- C7 (amended): for valid 1-based bounds with `start ≤ end`, range
resolution yields the ordered 0-based sequence `[start-1, ..., end-1]`, and
the transcript key is the scalar integer `start-1` (the single 0-based
index, NOT the 1-based page number) when the sequence has length 1, and
otherwise the composite string "first-last" over 0-based indices; scalar
keys are distinct from every composite key. Scenario: `resolve_range 2 4`
yields `[1,2,3]` with key "1-3". -/
theorem resolve_range_indices_and_key (start_page end_page : Nat)
    (h1 : 1 ≤ start_page) (h2 : start_page ≤ end_page) :
    (resolve_range start_page end_page
      = some (List.range' (start_page - 1) (end_page - start_page + 1),
          if start_page = end_page then ChatKey.int (start_page - 1)
          else ChatKey.str (toString (start_page - 1) ++ "-" ++ toString (end_page - 1)))) ∧
    resolve_range 2 4 = some ([1, 2, 3], ChatKey.str "1-3") ∧
    (∀ n s, ChatKey.int n ≠ ChatKey.str s) := by
  refine ⟨?_, by decide, fun n s h => ChatKey.noConfusion h⟩
  unfold resolve_range
  rw [if_neg (by omega : ¬ start_page > end_page)]
  have hsel : selectedIndices start_page end_page
      = List.range' (start_page - 1) (end_page - start_page + 1) := by
    unfold selectedIndices
    congr 1
    omega
  rw [hsel]
  have hkey : transcriptKey (List.range' (start_page - 1) (end_page - start_page + 1))
      = if start_page = end_page then ChatKey.int (start_page - 1)
        else ChatKey.str (toString (start_page - 1) ++ "-" ++ toString (end_page - 1)) := by
    unfold transcriptKey
    rw [List.length_range']
    by_cases hse : start_page = end_page
    · subst hse
      rw [if_pos (by omega), if_pos rfl, headD_range' _ _ (by omega)]
    · rw [if_neg (by omega), if_neg hse, headD_range' _ _ (by omega),
        getLastD_range' _ _ (by omega)]
      have harith : start_page - 1 + (end_page - start_page + 1 - 1) = end_page - 1 := by
        omega
      rw [harith]
  rw [hkey]

theorem resolve_range_indices_and_key_witness :
    resolve_range 2 3 = some ([1, 2], ChatKey.str "1-2") := by
  rw [(resolve_range_indices_and_key 2 3 (by decide) (by decide)).1]
  decide

/-- C7 counterexample: the claim states `resolve_range(p, p)` yields the
scalar key `p`; the code yields the scalar key `p - 1` (the 0-based index).
At `p = 2` the code produces key `int 1`, which differs from `int 2`. -/
theorem resolve_range_scalar_key_counterexample :
    resolve_range 2 2 = some ([1], ChatKey.int 1) ∧ ChatKey.int 1 ≠ ChatKey.int 2 :=
  ⟨by decide, by decide⟩

/-- C8: a chat range with `start > end` is rejected: `chat_dialog` returns
with an error (`none` resolution), performing no page fetch or conversion
and leaving the whole session state — page cache, transcripts and current
page index — unchanged, for every converter. -/
theorem invalid_chat_range_leaves_state_unchanged {α : Type}
    (convert : List Nat → Option (List α)) (st : SessionState α)
    (start_page end_page : Nat) (h : start_page > end_page) :
    chat_dialog_step convert st start_page end_page = (st, none) := by
  unfold chat_dialog_step
  rw [if_pos h]

theorem invalid_chat_range_leaves_state_unchanged_witness :
    chat_dialog_step demoConvert
      (SessionState.mk ([] : Cache Nat) [] 0) 3 2
      = (SessionState.mk ([] : Cache Nat) [] 0, none) :=
  invalid_chat_range_leaves_state_unchanged demoConvert _ 3 2 (by decide)

/-- C9: `handle_page_jump` with a 1-based target in `[1, total_pages]` sets
the current page index to `target - 1` without a warning; any target outside
that range emits the out-of-range warning and leaves the index unchanged. -/
theorem handle_page_jump_spec (total_pages : Nat) (current_page page_jump : Int) :
    (1 ≤ page_jump → page_jump ≤ (total_pages : Int) →
        handle_page_jump total_pages current_page page_jump = (page_jump - 1, false)) ∧
    (page_jump < 1 ∨ (total_pages : Int) < page_jump →
        handle_page_jump total_pages current_page page_jump = (current_page, true)) := by
  constructor
  · intro ha hb
    unfold handle_page_jump
    rw [if_pos ⟨ha, hb⟩]
  · intro h
    have hneg : ¬(1 ≤ page_jump ∧ page_jump ≤ (total_pages : Int)) := by
      rcases h with h | h <;> intro hc <;> omega
    unfold handle_page_jump
    rw [if_neg hneg]

theorem handle_page_jump_spec_witness :
    handle_page_jump 5 0 7 = (0, true) ∧ handle_page_jump 5 0 3 = (2, false) :=
  ⟨(handle_page_jump_spec 5 0 7).2 (Or.inr (by decide)),
   (handle_page_jump_spec 5 0 3).1 (by decide) (by decide)⟩

theorem take2_eq {l : List Char} {a b : Char} (h : l.take 2 = [a, b]) :
    l = a :: b :: l.drop 2 := by
  cases l with
  | nil => simp at h
  | cons c l1 =>
    cases l1 with
    | nil => simp at h
    | cons d l2 =>
      simp only [List.take_succ_cons, List.take_zero, List.cons.injEq, and_true] at h
      obtain ⟨h1, h2⟩ := h
      subst h1
      subst h2
      rfl

theorem splitInner_cons (c : Char) (rest : List Char) :
    splitInner (c :: rest)
      = if rest.take 2 = ['*', '*'] then some ([c], rest.drop 2)
        else (splitInner rest).map (fun p => (c :: p.1, p.2)) := rfl

theorem splitInner_ne_nil {t i u} (h : splitInner t = some (i, u)) : i ≠ [] := by
  induction t generalizing i u with
  | nil => simp [splitInner] at h
  | cons c rest ih =>
    rw [splitInner_cons] at h
    split at h
    · cases h
      simp
    · rw [Option.map_eq_some'] at h
      obtain ⟨p, hp, hfp⟩ := h
      cases hfp
      simp

theorem splitInner_length {t i u} (h : splitInner t = some (i, u)) :
    t.length = i.length + u.length + 2 := by
  induction t generalizing i u with
  | nil => simp [splitInner] at h
  | cons c rest ih =>
    rw [splitInner_cons] at h
    split at h
    · next htake =>
      cases h
      have hr := take2_eq htake
      rw [List.length_cons, hr]
      simp
      omega
    · rw [Option.map_eq_some'] at h
      obtain ⟨p, hp, hfp⟩ := h
      cases hfp
      have := ih hp
      simp [this]
      omega

theorem splitInner_decomp {t i u} (h : splitInner t = some (i, u)) :
    t = i ++ ('*' :: '*' :: u) := by
  induction t generalizing i u with
  | nil => simp [splitInner] at h
  | cons c rest ih =>
    rw [splitInner_cons] at h
    split at h
    · next htake =>
      cases h
      have hr := take2_eq htake
      rw [hr]
      rfl
    · rw [Option.map_eq_some'] at h
      obtain ⟨p, hp, hfp⟩ := h
      cases hfp
      rw [ih hp]
      rfl

theorem take2_append_indep (i : List Char) (hne : i ≠ []) (u v : List Char) :
    (i ++ ('*' :: '*' :: u)).take 2 = (i ++ ('*' :: '*' :: v)).take 2 := by
  cases i with
  | nil => exact absurd rfl hne
  | cons d i1 =>
    cases i1 with
    | nil => rfl
    | cons e i2 => rfl

theorem splitInner_stable {i u : List Char}
    (h : splitInner (i ++ ('*' :: '*' :: u)) = some (i, u)) (v : List Char) :
    splitInner (i ++ ('*' :: '*' :: v)) = some (i, v) := by
  induction i generalizing u v with
  | nil => exact absurd rfl (splitInner_ne_nil h)
  | cons c i1 ih =>
    rw [List.cons_append, splitInner_cons] at h
    rw [List.cons_append, splitInner_cons]
    split at h
    · next htake =>
      simp only [Option.some.injEq, Prod.mk.injEq] at h
      obtain ⟨ha, hb⟩ := h
      have hi1 : i1 = [] := by
        have := List.cons.injEq c [] c i1 ▸ ha
        exact this.2.symm
      subst hi1
      simp
    · next htake =>
      simp only [Option.map_eq_some'] at h
      obtain ⟨⟨q1, q2⟩, hp, hfp⟩ := h
      simp only [Prod.mk.injEq, List.cons.injEq, true_and] at hfp
      obtain ⟨h1, h2⟩ := hfp
      rw [h1, h2] at hp
      have hne : i1 ≠ [] := splitInner_ne_nil hp
      rw [if_neg (fun hc => htake ((take2_append_indep i1 hne u v).symm ▸ hc)),
        ih hp v]
      rfl

theorem splitInner_of_no_star {i : List Char} (h1 : i ≠ []) (h2 : '*' ∉ i)
    (u : List Char) : splitInner (i ++ ('*' :: '*' :: u)) = some (i, u) := by
  induction i with
  | nil => exact absurd rfl h1
  | cons c i1 ih =>
    cases i1 with
    | nil =>
      rw [List.cons_append, List.nil_append, splitInner_cons, if_pos (by simp)]
      rfl
    | cons d i2 =>
      have hd : d ≠ '*' := fun hc => h2 (by rw [← hc]; simp)
      have hcond : ((d :: i2) ++ ('*' :: '*' :: u)).take 2 ≠ ['*', '*'] := by
        cases i2 with
        | nil => simp [hd]
        | cons e i3 => simp [hd]
      rw [List.cons_append, splitInner_cons, if_neg hcond,
        ih (by simp) (fun hc => h2 (List.mem_cons_of_mem c hc))]
      rfl

theorem splitInner_none_tail {c : Char} {r : List Char}
    (h : splitInner (c :: r) = none) :
    splitInner r = none ∧ r.take 2 ≠ ['*', '*'] := by
  rw [splitInner_cons] at h
  split at h
  · cases h
  · next htake => exact ⟨Option.map_eq_none'.mp h, htake⟩

theorem matchAt_cons2 (t : List Char) :
    matchAt ('*' :: '*' :: t)
      = (splitInner t).map
          (fun p => (p.1, p.2.takeWhile isPySpace, p.2.dropWhile isPySpace)) := rfl

theorem matchAt_not_star {c : Char} (hc : c ≠ '*') (r : List Char) :
    matchAt (c :: r) = none := by
  unfold matchAt
  rw [if_neg]
  intro hcon
  exact hc (List.cons.injEq .. ▸ hcon).1

theorem matchAt_nil : matchAt [] = none := rfl

theorem matchAt_of_splitInner {i u : List Char}
    (h : splitInner (i ++ ('*' :: '*' :: u)) = some (i, u)) (x : List Char) :
    matchAt ('*' :: '*' :: (i ++ ('*' :: '*' :: x)))
      = some (i, x.takeWhile isPySpace, x.dropWhile isPySpace) := by
  rw [matchAt_cons2, splitInner_stable h x]
  rfl

theorem matchAt_inv {s i w r : List Char} (h : matchAt s = some (i, w, r)) :
    ∃ u, s = '*' :: '*' :: (i ++ ('*' :: '*' :: u)) ∧
      splitInner (i ++ ('*' :: '*' :: u)) = some (i, u) ∧
      w = u.takeWhile isPySpace ∧ r = u.dropWhile isPySpace := by
  unfold matchAt at h
  split at h
  · next htake =>
    rw [Option.map_eq_some'] at h
    obtain ⟨⟨q1, q2⟩, hp, hfp⟩ := h
    simp only [Prod.mk.injEq] at hfp
    obtain ⟨h1, h2, h3⟩ := hfp
    subst h1
    have hdec := splitInner_decomp hp
    refine ⟨q2, ?_, ?_, h2.symm, h3.symm⟩
    · rw [take2_eq htake, hdec]
    · rw [← hdec]
      exact hp
  · cases h

theorem matchAt_length {s i w r : List Char} (h : matchAt s = some (i, w, r)) :
    r.length < s.length := by
  obtain ⟨u, hs, hsp, hw, hr⟩ := matchAt_inv h
  have h1 : r.length ≤ u.length := by
    rw [hr]
    exact (List.dropWhile_sublist isPySpace).length_le
  have h2 : s.length = i.length + u.length + 4 := by
    rw [hs]
    simp
    omega
  omega

theorem matchAt_star_none {z : List Char} (h : splitInner z = none) :
    matchAt ('*' :: z) = none := by
  unfold matchAt
  split
  · next htake =>
    have hz := take2_eq htake
    injection hz with h1 h2
    have hsp : splitInner (z.drop 1) = none := by
      rw [h2] at h
      exact (splitInner_none_tail h).1
    show Option.map _ (splitInner (z.drop 1)) = none
    rw [hsp]
    rfl
  · rfl

theorem subAuxF_nil (n : Nat) : subAuxF n [] = [] := by
  cases n with
  | zero => rfl
  | succ m => rfl

theorem subAuxF_succ_some {s i w r : List Char} (h : matchAt s = some (i, w, r))
    (n : Nat) : subAuxF (n + 1) s = repl i w ++ subAuxF n r := by
  conv_lhs => rw [subAuxF.eq_def]
  simp only [h]

theorem subAuxF_succ_none {c : Char} {rest : List Char}
    (h : matchAt (c :: rest) = none) (n : Nat) :
    subAuxF (n + 1) (c :: rest) = c :: subAuxF n rest := by
  conv_lhs => rw [subAuxF.eq_def]
  simp only [h]

theorem subAuxF_eq_of_le :
    ∀ (n1 n2 : Nat) (s : List Char), s.length ≤ n1 → s.length ≤ n2 →
      subAuxF n1 s = subAuxF n2 s := by
  intro n1
  induction n1 with
  | zero =>
    intro n2 s h1 h2
    have hs : s = [] := List.eq_nil_of_length_eq_zero (Nat.le_zero.mp h1)
    rw [hs, subAuxF_nil, subAuxF_nil]
  | succ m ih =>
    intro n2 s h1 h2
    cases n2 with
    | zero =>
      have hs : s = [] := List.eq_nil_of_length_eq_zero (Nat.le_zero.mp h2)
      rw [hs, subAuxF_nil, subAuxF_nil]
    | succ k =>
      cases hm : matchAt s with
      | some v =>
        obtain ⟨i, w, r⟩ := v
        rw [subAuxF_succ_some hm m, subAuxF_succ_some hm k]
        have hr := matchAt_length hm
        rw [ih k r (by omega) (by omega)]
      | none =>
        cases s with
        | nil => rw [subAuxF_nil, subAuxF_nil]
        | cons c rest =>
          rw [subAuxF_succ_none hm m, subAuxF_succ_none hm k]
          rw [ih k rest (by simp at h1; omega) (by simp at h2; omega)]

theorem subAux_match {s i w r : List Char} (h : matchAt s = some (i, w, r)) :
    subAux s = repl i w ++ subAux r := by
  cases s with
  | nil => rw [matchAt_nil] at h; cases h
  | cons c rest =>
    show subAuxF (rest.length + 1) (c :: rest) = _
    rw [subAuxF_succ_some h rest.length]
    have hr := matchAt_length h
    rw [subAuxF_eq_of_le rest.length r.length r (by simp at hr; omega) (Nat.le_refl _)]
    rfl

theorem subAux_none {c : Char} {rest : List Char} (h : matchAt (c :: rest) = none) :
    subAux (c :: rest) = c :: subAux rest := by
  show subAuxF (rest.length + 1) (c :: rest) = _
  rw [subAuxF_succ_none h rest.length]
  rfl

theorem subAux_nil : subAux [] = [] := rfl
theorem dropWhile_eq_self_of_takeWhile_nil {p : Char → Bool} {l : List Char}
    (h : l.takeWhile p = []) : l.dropWhile p = l := by
  cases l with
  | nil => rfl
  | cons c l1 =>
    by_cases hc : p c
    · rw [List.takeWhile_cons_of_pos hc] at h
      cases h
    · exact List.dropWhile_cons_of_neg hc

theorem takeWhile_dropWhile_nil (p : Char → Bool) (l : List Char) :
    (l.dropWhile p).takeWhile p = [] := by
  induction l with
  | nil => rfl
  | cons c l1 ih =>
    by_cases hc : p c
    · rw [List.dropWhile_cons_of_pos hc]
      exact ih
    · rw [List.dropWhile_cons_of_neg hc, List.takeWhile_cons_of_neg hc]

theorem takeWhile_takeWhile_append (p : Char → Bool) (u y : List Char) :
    (u.takeWhile p ++ y).takeWhile p = u.takeWhile p ++ y.takeWhile p := by
  induction u with
  | nil => simp
  | cons c u1 ih =>
    by_cases hc : p c
    · rw [List.takeWhile_cons_of_pos hc, List.cons_append,
        List.takeWhile_cons_of_pos hc, ih, List.cons_append]
    · rw [List.takeWhile_cons_of_neg hc]
      simp

theorem dropWhile_takeWhile_append (p : Char → Bool) (u y : List Char) :
    (u.takeWhile p ++ y).dropWhile p = y.dropWhile p := by
  induction u with
  | nil => simp
  | cons c u1 ih =>
    by_cases hc : p c
    · rw [List.takeWhile_cons_of_pos hc, List.cons_append,
        List.dropWhile_cons_of_pos hc, ih]
    · rw [List.takeWhile_cons_of_neg hc, List.nil_append]

theorem subAux_takeWhile_nil {z : List Char}
    (h : z.takeWhile isPySpace = []) : (subAux z).takeWhile isPySpace = [] := by
  cases z with
  | nil => rfl
  | cons c z1 =>
    have hc : ¬ isPySpace c = true := by
      intro hcc
      rw [List.takeWhile_cons_of_pos hcc] at h
      cases h
    cases hm : matchAt (c :: z1) with
    | none => rw [subAux_none hm, List.takeWhile_cons_of_neg hc]
    | some v =>
      obtain ⟨i, w, r⟩ := v
      rw [subAux_match hm, repl, List.cons_append,
        List.takeWhile_cons_of_neg (by decide : ¬ isPySpace '*' = true)]

theorem subAux_of_splitInner_none {z : List Char} (h : splitInner z = none) :
    subAux z = z := by
  induction z with
  | nil => rfl
  | cons c z1 ih =>
    have hz1 : splitInner z1 = none := (splitInner_none_tail h).1
    have hmn : matchAt (c :: z1) = none := by
      by_cases hc : c = '*'
      · subst hc
        exact matchAt_star_none hz1
      · exact matchAt_not_star hc z1
    rw [subAux_none hmn, ih hz1]

theorem matchAt_subAux_none {c : Char} {rest : List Char}
    (h : matchAt (c :: rest) = none) : matchAt (c :: subAux rest) = none := by
  by_cases hc : c = '*'
  case neg => exact matchAt_not_star hc _
  subst hc
  cases rest with
  | nil => rfl
  | cons d rest2 =>
    by_cases hd : d = '*'
    · subst hd
      rw [matchAt_cons2] at h
      have hsn : splitInner rest2 = none := Option.map_eq_none'.mp h
      have hm2 : matchAt ('*' :: rest2) = none := matchAt_star_none hsn
      rw [subAux_none hm2, matchAt_cons2, subAux_of_splitInner_none hsn, hsn]
      rfl
    · have hm2 : matchAt (d :: rest2) = none := matchAt_not_star hd rest2
      rw [subAux_none hm2]
      unfold matchAt
      have hncond : ¬ List.take 2 ('*' :: d :: subAux rest2) = ['*', '*'] := by
        intro hcon
        have h2 := take2_eq hcon
        injection h2 with ha hb
        injection hb with hc2 hd2
        exact hd hc2
      rw [if_neg hncond]
theorem subAux_span (inner rest : List Char) (h1 : inner ≠ []) (h2 : '*' ∉ inner) :
    subAux ('*' :: '*' :: (inner ++ ('*' :: '*' :: rest)))
      = '*' :: '*' :: (inner ++ ('*' :: '*' ::
          (if hasSymbolChar inner ∧ rest.takeWhile isPySpace = []
           then ' ' :: subAux rest
           else rest.takeWhile isPySpace ++ subAux (rest.dropWhile isPySpace)))) := by
  have hsp := splitInner_of_no_star h1 h2 rest
  have hm := matchAt_of_splitInner hsp rest
  rw [subAux_match hm, repl]
  by_cases hcond : hasSymbolChar inner ∧ rest.takeWhile isPySpace = []
  · rw [if_pos hcond, if_pos hcond, dropWhile_eq_self_of_takeWhile_nil hcond.2]
    simp [List.cons_append, List.append_assoc]
  · rw [if_neg hcond, if_neg hcond]
    simp [List.cons_append, List.append_assoc]

theorem subAux_idem (s : List Char) : subAux (subAux s) = subAux s := by
  suffices h : ∀ n (s : List Char), s.length = n → subAux (subAux s) = subAux s from
    h s.length s rfl
  intro n
  induction n using Nat.strong_induction_on with
  | _ n ih =>
  intro s hn
  cases hm : matchAt s with
  | none =>
    cases s with
    | nil => rfl
    | cons c rest =>
      rw [subAux_none hm, subAux_none (matchAt_subAux_none hm)]
      congr 1
      exact ih rest.length (by simp at hn; omega) rest rfl
  | some v =>
    obtain ⟨i, w, r⟩ := v
    obtain ⟨u, hs, hsp, hw, hr⟩ := matchAt_inv hm
    have hrlen : r.length < n := hn ▸ matchAt_length hm
    have hidem : subAux (subAux r) = subAux r := ih r.length hrlen r rfl
    have hrtw : (subAux r).takeWhile isPySpace = [] := by
      apply subAux_takeWhile_nil
      rw [hr]
      exact takeWhile_dropWhile_nil isPySpace u
    rw [subAux_match hm, repl]
    by_cases hcond : hasSymbolChar i ∧ w = []
    · rw [if_pos hcond]
      have hshape : (('*' :: '*' :: (i ++ ('*' :: '*' :: [' ']))) ++ subAux r)
          = '*' :: '*' :: (i ++ ('*' :: '*' :: (' ' :: subAux r))) := by
        simp [List.cons_append, List.append_assoc]
      rw [hshape]
      have hm2 := matchAt_of_splitInner hsp (' ' :: subAux r)
      rw [subAux_match hm2]
      have htw : (' ' :: subAux r).takeWhile isPySpace = [' '] := by
        rw [List.takeWhile_cons_of_pos (by decide), hrtw]
      have hdw : (' ' :: subAux r).dropWhile isPySpace = subAux r := by
        rw [List.dropWhile_cons_of_pos (by decide),
          dropWhile_eq_self_of_takeWhile_nil hrtw]
      rw [htw, hdw, hidem, repl,
        if_neg (by simp : ¬(hasSymbolChar i ∧ ([' '] : List Char) = []))]
      exact hshape
    · rw [if_neg hcond]
      have hshape : (('*' :: '*' :: (i ++ ('*' :: '*' :: w))) ++ subAux r)
          = '*' :: '*' :: (i ++ ('*' :: '*' :: (w ++ subAux r))) := by
        simp [List.cons_append, List.append_assoc]
      rw [hshape]
      have hm2 := matchAt_of_splitInner hsp (w ++ subAux r)
      rw [subAux_match hm2]
      have htw : (w ++ subAux r).takeWhile isPySpace = w := by
        rw [hw, takeWhile_takeWhile_append, hrtw, List.append_nil]
      have hdw : (w ++ subAux r).dropWhile isPySpace = subAux r := by
        rw [hw, dropWhile_takeWhile_append, dropWhile_eq_self_of_takeWhile_nil hrtw]
      rw [htw, hdw, hidem, repl, if_neg hcond]
      exact hshape
/-- Claim C5: the repair scans for emphasis spans delimited by a
double-asterisk marker on both sides; the span covers the whole stretch of
text between the delimiter pair, newlines included (`inner` below may
contain any characters other than the marker character itself, in
particular newlines), and exactly one space is inserted immediately after
the closing marker iff the enclosed content contains a character that is
not an ASCII letter, digit or whitespace AND the text following the
closing marker does not already start with whitespace; everything else
(the span itself, the following whitespace, the repaired remainder) is
reproduced unchanged. The scenario examples `repair("**!!**next")` and
`repair("**ok**next")` are included. -/
theorem bold_repair_span_behavior (inner rest : List Char)
    (h1 : inner ≠ []) (h2 : '*' ∉ inner) :
    (fix_bold_symbol_issue (String.mk ('*' :: '*' :: (inner ++ ('*' :: '*' :: rest))))
      = String.mk ('*' :: '*' :: (inner ++ ('*' :: '*' ::
          (if hasSymbolChar inner ∧ rest.takeWhile isPySpace = []
           then ' ' :: subAux rest
           else rest.takeWhile isPySpace ++ subAux (rest.dropWhile isPySpace)))))) ∧
    fix_bold_symbol_issue "**!!**next" = "**!!** next" ∧
    fix_bold_symbol_issue "**ok**next" = "**ok**next" := by
  refine ⟨?_, by decide, by decide⟩
  exact congrArg String.mk (subAux_span inner rest h1 h2)

theorem bold_repair_span_behavior_witness :
    fix_bold_symbol_issue (String.mk ('*' :: '*' :: (['!'] ++ ('*' :: '*' :: ['n']))))
      = String.mk ('*' :: '*' :: (['!'] ++ ('*' :: '*' ::
          (if hasSymbolChar ['!'] ∧ (['n'].takeWhile isPySpace) = []
           then ' ' :: subAux ['n']
           else (['n'].takeWhile isPySpace) ++ subAux (['n'].dropWhile isPySpace))))) :=
  (bold_repair_span_behavior ['!'] ['n'] (by decide) (by decide)).1

/-- Claim C6: `fix_bold_symbol_issue` is idempotent — applying it twice
yields the same string as applying it once, for every input string. -/
theorem fix_bold_symbol_issue_idempotent (x : String) :
    fix_bold_symbol_issue (fix_bold_symbol_issue x) = fix_bold_symbol_issue x :=
  congrArg String.mk (subAux_idem x.data)

/-- Claim C10: when the input ends with an emphasis span whose content has
a symbol character and whose closing marker is the very end of the string,
the repair appends exactly one trailing space: the empty text after the
marker counts as "not already whitespace". Includes
`repair("**!**") = "**!** "`. -/
theorem bold_repair_trailing_span (inner : List Char) (h1 : inner ≠ [])
    (h2 : '*' ∉ inner) (h3 : hasSymbolChar inner = true) :
    fix_bold_symbol_issue (String.mk ('*' :: '*' :: (inner ++ ['*', '*'])))
      = String.mk (('*' :: '*' :: (inner ++ ['*', '*'])) ++ [' ']) ∧
    fix_bold_symbol_issue "**!**" = "**!** " := by
  refine ⟨?_, by decide⟩
  have h := subAux_span inner [] h1 h2
  rw [if_pos ⟨h3, rfl⟩, subAux_nil] at h
  show String.mk (subAux ('*' :: '*' :: (inner ++ ('*' :: '*' :: [])))) = _
  rw [h]
  apply congrArg String.mk
  simp [List.cons_append, List.append_assoc]

theorem bold_repair_trailing_span_witness :
    fix_bold_symbol_issue (String.mk ('*' :: '*' :: (['!'] ++ ['*', '*'])))
      = String.mk (('*' :: '*' :: (['!'] ++ ['*', '*'])) ++ [' ']) :=
  (bold_repair_trailing_span ['!'] (by decide) (by decide) (by decide)).1
end PyPdfView
